import Mathlib

/-!
Shallow embedding of TeamForge's project technology-detection engine:
`src-tauri/src/services/parser_service.rs` (manifest parsers) and
`src-tauri/src/services/analyzer_service.rs` (analysis, classification,
agent suggestion), together with the command wrapper in
`src-tauri/src/commands/project_commands.rs`.

Strings are Lean `String`s; every operation the Rust code performs on
string contents (lexicographic comparison, substring containment,
lowercasing, trimming, splitting on `==`) is defined structurally on the
underlying character list so that all definitions are kernel-computable.
Manifest files are represented by their parsed shape (the JSON/TOML layer
is the serde/toml library, outside this engine): a Node manifest by the
key lists of its `dependencies`/`devDependencies`/`scripts` sections, a
requirements file and a go.mod by their line lists, a Cargo manifest by
the key list of its `[dependencies]` table.  The filesystem walk is
represented by the list of regular files it yields, each file reduced to
the one datum the loop uses: its extension (`none` for an extensionless
file).
-/

namespace TeamForge

/-- Lexicographic comparison of character lists: models the ordering on
Rust `String` used by `Vec::<String>::sort`. -/
def lexLe : List Char → List Char → Bool
  | [], _ => true
  | _ :: _, [] => false
  | a :: xs, b :: ys => if a < b then true else if b < a then false else lexLe xs ys

/-- Comparison on `String` through its character list. -/
def strLe (a b : String) : Bool := lexLe a.data b.data

/-- The order relation underlying `strLe`, used to state sortedness. -/
def StrLE (a b : String) : Prop := strLe a b = true

/-- Substring containment: models Rust `str::contains` with a string
pattern (`pat` occurs contiguously in `s`). -/
def strContains (s pat : String) : Bool := decide (pat.data <:+: s.data)

/-- Membership test on a vector of strings: models `Vec::<String>::contains`. -/
def listContains (l : List String) (x : String) : Bool := l.any (fun t => t == x)

/-- Insertion of a string into a sorted list (helper for `sortStr`). -/
def insertSorted (x : String) : List String → List String
  | [] => [x]
  | y :: ys => if strLe x y then x :: y :: ys else y :: insertSorted x ys

/-- Sorting a list of strings: models `Vec::<String>::sort` (stable sort by
the lexicographic order; represented here by insertion sort, which yields
the same — unique up to equality of sorted permutations — result). -/
def sortStr (l : List String) : List String := l.foldr insertSorted []

/-- Removal of consecutive duplicates: models `Vec::dedup`. -/
def dedupAdj : List String → List String
  | [] => []
  | [x] => [x]
  | x :: y :: ys => if x = y then dedupAdj (y :: ys) else x :: dedupAdj (y :: ys)

/-- The `v.sort(); v.dedup();` sequence the analyzer applies to technology
and agent vectors. -/
def sortDedup (l : List String) : List String := dedupAdj (sortStr l)

/-! ### Manifest parsers (`parser_service.rs`) -/

/-- Parsed shape of a `package.json` that `serde_json` accepted: the key
lists of the three sections `parse_package_json` inspects (`none` when the
section is absent or not an object). -/
structure PackageJson where
  dependencies : Option (List String)
  devDependencies : Option (List String)
  scripts : Option (List String)
deriving DecidableEq

/-- Parsed shape of a `Cargo.toml` that the `toml` crate accepted: the key
list of its `[dependencies]` table (`none` when absent or not a table). -/
structure CargoToml where
  dependencies : Option (List String)
deriving DecidableEq

/-- The `framework_map` table in `extract_frameworks_from_deps`
(dependency name, exact match → technology tag). -/
def framework_map : List (String × String) :=
  [("react", "react"), ("vue", "vue"), ("angular", "angular"), ("svelte", "svelte"),
   ("next", "next"), ("nuxt", "nuxt"), ("express", "express"), ("fastify", "fastify"),
   ("koa", "koa"), ("nest", "nestjs"), ("@nestjs/core", "nestjs"),
   ("typescript", "typescript"), ("vite", "vite"), ("webpack", "webpack"),
   ("jest", "jest"), ("vitest", "vitest"), ("cypress", "cypress"),
   ("playwright", "playwright")]

/-- Model of `ParserService::extract_frameworks_from_deps`: walk the
dependency keys in order, mapping each through `framework_map` and pushing
the tag unless it is already present. -/
def extract_frameworks_from_deps (deps : List String) : List String :=
  deps.foldl
    (fun frameworks dep =>
      match List.lookup dep framework_map with
      | some framework => if framework ∈ frameworks then frameworks else frameworks ++ [framework]
      | none => frameworks)
    []

/-- Model of `ParserService::parse_package_json` on a successfully parsed
manifest: frameworks from `dependencies`, then from `devDependencies`,
then the tag `node` when `scripts` defines `dev` or `start`. -/
def parse_package_json (p : PackageJson) : List String :=
  (match p.dependencies with
    | some deps => extract_frameworks_from_deps deps
    | none => [])
  ++ (match p.devDependencies with
    | some deps => extract_frameworks_from_deps deps
    | none => [])
  ++ (match p.scripts with
    | some scripts =>
        if listContains scripts "dev" || listContains scripts "start" then ["node"] else []
    | none => [])

/-- The `framework_keywords` table in `parse_requirements_txt`
(substring keyword → technology tag). -/
def python_framework_keywords : List (String × String) :=
  [("django", "django"), ("flask", "flask"), ("fastapi", "fastapi"),
   ("tornado", "tornado"), ("pyramid", "pyramid"), ("pandas", "pandas"),
   ("numpy", "numpy"), ("tensorflow", "tensorflow"), ("pytorch", "pytorch"),
   ("scikit-learn", "sklearn")]

/-- Prefix of a character list up to (excluding) the first occurrence of
`==`: models `line.split("==").next()`. -/
def takeUntilEqEq : List Char → List Char
  | [] => []
  | '=' :: '=' :: _ => []
  | c :: rest => c :: takeUntilEqEq rest

/-- Whitespace trimming on a character list: models `str::trim`. -/
def trimChars (l : List Char) : List Char :=
  ((l.dropWhile Char.isWhitespace).reverse.dropWhile Char.isWhitespace).reverse

/-- The normalized package name of one requirements line:
`line.split("==").next().unwrap_or("").trim().to_lowercase()`. -/
def normalizeReqLine (line : String) : List Char :=
  (trimChars (takeUntilEqEq line.data)).map Char.toLower

/-- Model of `ParserService::parse_requirements_txt` on the line list of a
readable file: starts from `python`, then for every line pushes the tag of
every keyword contained in the normalized package name. -/
def parse_requirements_txt (lines : List String) : List String :=
  lines.foldl
    (fun technologies line =>
      technologies ++ python_framework_keywords.filterMap
        (fun kf => if decide (kf.1.data <:+: normalizeReqLine line) then some kf.2 else none))
    ["python"]

/-- The `framework_keywords` table in `parse_cargo_toml`
(dependency-table key, exact match → technology tag). -/
def rust_framework_keywords : List (String × String) :=
  [("actix-web", "actix"), ("rocket", "rocket"), ("axum", "axum"), ("warp", "warp"),
   ("tokio", "tokio"), ("async-std", "async-std"), ("tauri", "tauri")]

/-- Model of `ParserService::parse_cargo_toml` on a successfully parsed
manifest: starts from `rust`, then pushes the tag of every keyword present
as a key of the `[dependencies]` table. -/
def parse_cargo_toml (cargo : CargoToml) : List String :=
  "rust" ::
    (match cargo.dependencies with
      | some deps =>
          rust_framework_keywords.filterMap
            (fun kf => if listContains deps kf.1 then some kf.2 else none)
      | none => [])

/-- The `framework_keywords` table in `parse_go_mod`
(import-path fragment, substring match → technology tag). -/
def go_framework_keywords : List (String × String) :=
  [("gin-gonic/gin", "gin"), ("gofiber/fiber", "fiber"), ("labstack/echo", "echo"),
   ("gorilla/mux", "gorilla")]

/-- Model of `ParserService::parse_go_mod` on the line list of a readable
file: starts from `go`, then for every line pushes the tag of every
keyword the line contains. -/
def parse_go_mod (lines : List String) : List String :=
  lines.foldl
    (fun technologies line =>
      technologies ++ go_framework_keywords.filterMap
        (fun kf => if strContains line kf.1 then some kf.2 else none))
    ["go"]

/-! ### Analyzer (`analyzer_service.rs`) -/

/-- The `ProjectType` enumeration of `models/mod.rs`. -/
inductive ProjectType where
  | webFullstack
  | backendApi
  | frontend
  | mobile
  | desktop
  | library
  | unknown
deriving DecidableEq

/-- One analysis root as `analyze_project` observes it.  Each manifest
slot is `some content` exactly when the file exists at the root and its
parse succeeds (a missing file and a failed parse are indistinguishable to
the analyzer: both leave the technology list untouched).  `files` is the
list of regular files yielded by the depth-bounded `WalkDir` traversal, in
traversal order, each represented by its extension (`Path::extension`),
`none` for an extensionless file. -/
structure FsSnapshot where
  packageJson : Option PackageJson
  requirementsTxt : Option (List String)
  cargoToml : Option CargoToml
  goMod : Option (List String)
  files : List (Option String)
deriving DecidableEq

/-- The `ProjectAnalysis` result struct.  The `file_counts` HashMap is
represented canonically as the association list of its entries in
ascending key order (a key is present exactly when its count was
incremented at least once, hence exactly when some walked file has that
extension). -/
structure ProjectAnalysis where
  project_type : ProjectType
  detected_technologies : List String
  file_counts : List (String × Nat)
  total_files : Nat
  suggested_agents : List String
deriving DecidableEq

/-- Extensions of the walked files, in walk order (one occurrence per file
that has an extension). -/
def extsOf (files : List (Option String)) : List String := files.filterMap id

/-- The extension histogram built by the walk loop: for each distinct
extension, the number of walked files carrying it.  This is the canonical
association-list form of the `HashMap<String, usize>` the Rust loop builds
by `*file_counts.entry(ext).or_insert(0) += 1`. -/
def fileCounts (files : List (Option String)) : List (String × Nat) :=
  (sortDedup (extsOf files)).map (fun e => (e, (extsOf files).count e))

/-- Key-presence test on the histogram: models `HashMap::contains_key`. -/
def containsKey (m : List (String × Nat)) (k : String) : Bool :=
  m.any (fun p => p.1 == k)

/-- Sum of the histogram counts: models `file_counts.values().sum::<usize>()`. -/
def valuesSum (m : List (String × Nat)) : Nat := (m.map Prod.snd).sum

/-- The frontend-framework set tested by `detect_project_type`. -/
def isFrontendTech (t : String) : Bool :=
  t == "react" || t == "vue" || t == "angular" || t == "svelte" || t == "next" || t == "nuxt"

/-- The backend-framework set tested by `detect_project_type`. -/
def isBackendTech (t : String) : Bool :=
  t == "express" || t == "fastify" || t == "koa" || t == "nestjs" || t == "django" ||
    t == "flask" || t == "fastapi" || t == "actix" || t == "rocket"

/-- The mobile-framework set tested by `detect_project_type`. -/
def isMobileTech (t : String) : Bool := t == "react-native" || t == "flutter"

/-- Model of `AnalyzerService::detect_project_type`: the four evidence
flags followed by the Rust `match` decision table, in source order. -/
def detect_project_type (technologies : List String) (file_counts : List (String × Nat)) :
    ProjectType :=
  let has_frontend := technologies.any isFrontendTech
  let has_backend := technologies.any isBackendTech
  let has_mobile := technologies.any isMobileTech || containsKey file_counts "swift" ||
    containsKey file_counts "kotlin"
  let has_desktop := listContains technologies "tauri" || listContains technologies "electron"
  match has_frontend, has_backend, has_mobile, has_desktop with
  | true, true, _, _ => ProjectType.webFullstack
  | _, true, false, false => ProjectType.backendApi
  | true, false, false, false => ProjectType.frontend
  | _, _, true, _ => ProjectType.mobile
  | _, _, _, true => ProjectType.desktop
  | _, _, _, _ =>
      if valuesSum file_counts < 10 then ProjectType.library else ProjectType.unknown

/-- The type-specific agent lists of `AnalyzerService::suggest_agents`. -/
def type_agents : ProjectType → List String
  | ProjectType.webFullstack =>
      ["fullstack-developer", "api-designer", "frontend-developer", "backend-developer"]
  | ProjectType.backendApi => ["backend-developer", "api-designer", "database-designer"]
  | ProjectType.frontend => ["frontend-developer", "ux-designer"]
  | ProjectType.mobile => ["mobile-developer", "ux-designer"]
  | ProjectType.desktop => ["frontend-developer", "backend-developer"]
  | ProjectType.library => ["tech-writer", "api-documenter"]
  | ProjectType.unknown => ["fullstack-developer"]

/-- The database-technology set tested by `suggest_agents`. -/
def isDbTech (t : String) : Bool := t == "postgres" || t == "mysql" || t == "mongodb"

/-- The test-framework set tested by `suggest_agents`. -/
def isTestTech (t : String) : Bool :=
  t == "jest" || t == "vitest" || t == "pytest" || t == "cypress" || t == "playwright"

/-- Model of `AnalyzerService::suggest_agents`: the base pair, the
type-specific agents, the three technology-triggered pushes, then
`sort(); dedup()`. -/
def suggest_agents (project_type : ProjectType) (technologies : List String) : List String :=
  sortDedup
    (["code-reviewer", "test-engineer"] ++ type_agents project_type
      ++ (if technologies.any (fun t => strContains t "docker") then ["docker-specialist"] else [])
      ++ (if technologies.any isDbTech then ["database-designer"] else [])
      ++ (if technologies.any isTestTech then ["e2e-tester"] else []))

/-- The technology list `analyze_project` accumulates from the four
manifest probes, in probe order, before deduplication. -/
def gathered_technologies (fs : FsSnapshot) : List String :=
  (match fs.packageJson with
    | some p => parse_package_json p
    | none => [])
  ++ (match fs.requirementsTxt with
    | some lines => parse_requirements_txt lines
    | none => [])
  ++ (match fs.cargoToml with
    | some cargo => parse_cargo_toml cargo
    | none => [])
  ++ (match fs.goMod with
    | some lines => parse_go_mod lines
    | none => [])

/-- Model of `AnalyzerService::analyze_project` on a readable root:
gather technologies, tally the walk, classify, suggest, then sort and
deduplicate the technology list. -/
def analyze_project (fs : FsSnapshot) : ProjectAnalysis :=
  let technologies := gathered_technologies fs
  let file_counts := fileCounts fs.files
  let total_files := fs.files.length
  let project_type := detect_project_type technologies file_counts
  let suggested_agents := suggest_agents project_type technologies
  { project_type := project_type
    detected_technologies := sortDedup technologies
    file_counts := file_counts
    total_files := total_files
    suggested_agents := suggested_agents }

/-- State of the root path handed to `analyze_project`: missing (or
unreadable), a regular file, or a directory with the given observable
contents. -/
inductive RootState where
  | missing : RootState
  | file (ext : Option String) : RootState
  | dir (fs : FsSnapshot) : RootState
deriving DecidableEq

/-- The snapshot a missing root presents: no manifest probe succeeds and
the walk yields nothing. -/
def emptySnapshot : FsSnapshot :=
  { packageJson := none, requirementsTxt := none, cargoToml := none, goMod := none,
    files := [] }

/-- Model of the full `analyze_project` entry point (service method plus
the `Result` it returns to the command layer) for any root state.  For a
missing root every `path.join(..).exists()` probe is false and the
`WalkDir` iterator yields a single error entry that `filter_map(|e| e.ok())`
discards; for a regular-file root the manifest probes are false and the
walk yields the root itself as its only file entry; in every case the
Rust function reaches its final `Ok(..)`. -/
def analyze_project_at (root : RootState) : Except String ProjectAnalysis :=
  match root with
  | RootState.missing => Except.ok (analyze_project emptySnapshot)
  | RootState.file ext =>
      Except.ok (analyze_project
        { packageJson := none, requirementsTxt := none, cargoToml := none, goMod := none,
          files := [ext] })
  | RootState.dir fs => Except.ok (analyze_project fs)

/-- Concrete snapshot of a directory whose only content is a `go.mod`
mentioning `gin-gonic/gin` (the walk sees the manifest file itself, with
extension `mod`). -/
def ginSnapshot : FsSnapshot :=
  { packageJson := none, requirementsTxt := none, cargoToml := none,
    goMod := some ["module example.com/demo", "", "require github.com/gin-gonic/gin v1.9.1"],
    files := [some "mod"] }

/-- Concrete snapshot of a directory holding ten extensionless regular
files and no manifests. -/
def extlessSnapshot : FsSnapshot :=
  { packageJson := none, requirementsTxt := none, cargoToml := none, goMod := none,
    files := List.replicate 10 none }

/-! ### Order lemmas for the string comparison -/

theorem lexLe_cons (x y : Char) (xs ys : List Char) :
    lexLe (x :: xs) (y :: ys) =
      if x < y then true else if y < x then false else lexLe xs ys := rfl

theorem lexLe_total : ∀ a b : List Char, lexLe a b = true ∨ lexLe b a = true := by
  intro a
  induction a with
  | nil => intro b; left; rfl
  | cons x xs ih =>
    intro b
    cases b with
    | nil => right; rfl
    | cons y ys =>
      rw [lexLe_cons, lexLe_cons]
      rcases lt_trichotomy x y with h | h | h
      · left; rw [if_pos h]
      · subst h
        simp only [if_neg (lt_irrefl x)]
        exact ih ys
      · right; rw [if_pos h]

theorem lexLe_trans :
    ∀ a b c : List Char, lexLe a b = true → lexLe b c = true → lexLe a c = true := by
  intro a
  induction a with
  | nil => intro b c _ _; rfl
  | cons x xs ih =>
    intro b c hab hbc
    cases b with
    | nil => simp [lexLe] at hab
    | cons y ys =>
      cases c with
      | nil => simp [lexLe] at hbc
      | cons z zs =>
        rw [lexLe_cons] at hab hbc ⊢
        rcases lt_trichotomy x y with hxy | hxy | hxy
        · rcases lt_trichotomy y z with hyz | hyz | hyz
          · rw [if_pos (hxy.trans hyz)]
          · subst hyz; rw [if_pos hxy]
          · rw [if_neg (asymm hyz), if_pos hyz] at hbc
            exact absurd hbc (by decide)
        · subst hxy
          simp only [if_neg (lt_irrefl x)] at hab
          rcases lt_trichotomy x z with hxz | hxz | hxz
          · rw [if_pos hxz]
          · subst hxz
            simp only [if_neg (lt_irrefl x)] at hbc ⊢
            exact ih ys zs hab hbc
          · rw [if_neg (asymm hxz), if_pos hxz] at hbc
            exact absurd hbc (by decide)
        · rw [if_neg (asymm hxy), if_pos hxy] at hab
          exact absurd hab (by decide)

theorem lexLe_antisymm :
    ∀ a b : List Char, lexLe a b = true → lexLe b a = true → a = b := by
  intro a
  induction a with
  | nil =>
    intro b _ hba
    cases b with
    | nil => rfl
    | cons y ys => simp [lexLe] at hba
  | cons x xs ih =>
    intro b hab hba
    cases b with
    | nil => simp [lexLe] at hab
    | cons y ys =>
      rw [lexLe_cons] at hab hba
      rcases lt_trichotomy x y with h | h | h
      · rw [if_neg (asymm h), if_pos h] at hba
        exact absurd hba (by decide)
      · subst h
        simp only [if_neg (lt_irrefl x)] at hab hba
        rw [ih ys hab hba]
      · rw [if_neg (asymm h), if_pos h] at hab
        exact absurd hab (by decide)

theorem strLe_total (a b : String) : StrLE a b ∨ StrLE b a :=
  lexLe_total a.data b.data

theorem strLe_trans {a b c : String} (hab : StrLE a b) (hbc : StrLE b c) : StrLE a c :=
  lexLe_trans a.data b.data c.data hab hbc

theorem strLe_antisymm {a b : String} (hab : StrLE a b) (hba : StrLE b a) : a = b := by
  cases a with
  | mk da =>
    cases b with
    | mk db =>
      have : da = db := lexLe_antisymm da db hab hba
      rw [this]

/-! ### Sorting and deduplication lemmas -/

theorem insertSorted_cons (x y : String) (ys : List String) :
    insertSorted x (y :: ys) =
      if strLe x y = true then x :: y :: ys else y :: insertSorted x ys := rfl

theorem perm_insertSorted (x : String) :
    ∀ l : List String, (insertSorted x l).Perm (x :: l) := by
  intro l
  induction l with
  | nil => exact List.Perm.refl _
  | cons y ys ih =>
    by_cases h : strLe x y = true
    · rw [insertSorted_cons, if_pos h]
    · rw [insertSorted_cons, if_neg h]
      exact (ih.cons y).trans (List.Perm.swap x y ys)

theorem sorted_insertSorted (x : String) :
    ∀ l : List String, List.Sorted StrLE l → List.Sorted StrLE (insertSorted x l) := by
  intro l
  induction l with
  | nil => intro _; simp [insertSorted, List.Sorted]
  | cons y ys ih =>
    intro hs
    by_cases h : strLe x y = true
    · rw [insertSorted_cons, if_pos h, List.sorted_cons]
      refine ⟨?_, hs⟩
      intro b hb
      rcases List.mem_cons.mp hb with rfl | hb
      · exact h
      · exact strLe_trans h ((List.sorted_cons.mp hs).1 b hb)
    · rw [insertSorted_cons, if_neg h, List.sorted_cons]
      have hyx : StrLE y x := by
        rcases strLe_total x y with h' | h'
        · exact absurd h' h
        · exact h'
      refine ⟨?_, ih (List.sorted_cons.mp hs).2⟩
      intro b hb
      rcases List.mem_cons.mp ((perm_insertSorted x ys).mem_iff.mp hb) with rfl | hb
      · exact hyx
      · exact (List.sorted_cons.mp hs).1 b hb

theorem sortStr_perm : ∀ l : List String, (sortStr l).Perm l := by
  intro l
  induction l with
  | nil => exact List.Perm.refl _
  | cons x xs ih =>
    exact (perm_insertSorted x (sortStr xs)).trans (ih.cons x)

theorem sortStr_sorted : ∀ l : List String, List.Sorted StrLE (sortStr l) := by
  intro l
  induction l with
  | nil => simp [sortStr, List.Sorted]
  | cons x xs ih => exact sorted_insertSorted x (sortStr xs) ih

theorem dedupAdj_cons_cons (x y : String) (ys : List String) :
    dedupAdj (x :: y :: ys) =
      if x = y then dedupAdj (y :: ys) else x :: dedupAdj (y :: ys) := rfl

theorem mem_dedupAdj : ∀ (l : List String) (a : String), a ∈ dedupAdj l ↔ a ∈ l := by
  intro l
  induction l with
  | nil => intro a; simp [dedupAdj]
  | cons x tail ih =>
    intro a
    cases tail with
    | nil => simp [dedupAdj]
    | cons y ys =>
      by_cases h : x = y
      · subst h
        rw [dedupAdj_cons_cons, if_pos rfl, ih a]
        simp
      · rw [dedupAdj_cons_cons, if_neg h]
        simp only [List.mem_cons, ih a]

theorem dedupAdj_sorted_lt :
    ∀ l : List String, List.Sorted StrLE l →
      List.Sorted (fun a b => StrLE a b ∧ a ≠ b) (dedupAdj l) := by
  intro l
  induction l with
  | nil => intro _; simp [dedupAdj, List.Sorted]
  | cons x tail ih =>
    intro hs
    cases tail with
    | nil => simp [dedupAdj, List.Sorted]
    | cons y ys =>
      by_cases h : x = y
      · subst h
        rw [dedupAdj_cons_cons, if_pos rfl]
        exact ih (List.sorted_cons.mp hs).2
      · rw [dedupAdj_cons_cons, if_neg h, List.sorted_cons]
        refine ⟨?_, ih (List.sorted_cons.mp hs).2⟩
        intro b hb
        have hb' : b ∈ y :: ys := (mem_dedupAdj _ b).mp hb
        have hxb : StrLE x b := (List.sorted_cons.mp hs).1 b hb'
        refine ⟨hxb, ?_⟩
        rcases List.mem_cons.mp hb' with rfl | hbys
        · exact h
        · intro hxbeq
          have hyb : StrLE y b :=
            (List.sorted_cons.mp (List.sorted_cons.mp hs).2).1 b hbys
          have hxy : StrLE x y := (List.sorted_cons.mp hs).1 y (List.mem_cons_self y ys)
          rw [← hxbeq] at hyb
          exact h (strLe_antisymm hxy hyb)

theorem sortDedup_sorted (l : List String) : List.Sorted StrLE (sortDedup l) :=
  (dedupAdj_sorted_lt (sortStr l) (sortStr_sorted l)).imp (fun h => h.1)

theorem sortDedup_nodup (l : List String) : (sortDedup l).Nodup :=
  (dedupAdj_sorted_lt (sortStr l) (sortStr_sorted l)).imp (fun h => h.2)

theorem mem_sortDedup {a : String} {l : List String} : a ∈ sortDedup l ↔ a ∈ l :=
  (mem_dedupAdj (sortStr l) a).trans (sortStr_perm l).mem_iff

theorem sortStr_eq_of_perm {l₁ l₂ : List String} (h : l₁.Perm l₂) : sortStr l₁ = sortStr l₂ := by
  haveI : IsAntisymm String StrLE := ⟨fun _ _ => strLe_antisymm⟩
  exact List.eq_of_perm_of_sorted ((sortStr_perm l₁).trans (h.trans (sortStr_perm l₂).symm))
    (sortStr_sorted l₁) (sortStr_sorted l₂)

theorem sortDedup_eq_of_perm {l₁ l₂ : List String} (h : l₁.Perm l₂) :
    sortDedup l₁ = sortDedup l₂ := by
  unfold sortDedup
  rw [sortStr_eq_of_perm h]

/-! ### Parser lemmas -/

theorem listContains_iff {l : List String} {x : String} : listContains l x = true ↔ x ∈ l := by
  unfold listContains
  rw [List.any_eq_true]
  constructor
  · rintro ⟨t, ht, heq⟩
    rw [← eq_of_beq heq]
    exact ht
  · intro hx
    exact ⟨x, hx, beq_self_eq_true x⟩

theorem mem_foldl_append {β : Type} (f : β → List String) :
    ∀ (items : List β) (init : List String) (a : String),
      a ∈ items.foldl (fun acc x => acc ++ f x) init ↔ a ∈ init ∨ ∃ x ∈ items, a ∈ f x := by
  intro items
  induction items with
  | nil => intro init a; simp
  | cons i is ih =>
    intro init a
    rw [List.foldl_cons, ih]
    simp only [List.mem_append, List.mem_cons]
    constructor
    · rintro (⟨ha | ha⟩ | ⟨x, hx, ha⟩)
      · exact Or.inl ha
      · exact Or.inr ⟨i, Or.inl rfl, ha⟩
      · exact Or.inr ⟨x, Or.inr hx, ha⟩
    · rintro (ha | ⟨x, rfl | hx, ha⟩)
      · exact Or.inl (Or.inl ha)
      · exact Or.inl (Or.inr ha)
      · exact Or.inr ⟨x, hx, ha⟩

theorem lookup_mem :
    ∀ (l : List (String × String)) (k v : String),
      List.lookup k l = some v → ∃ kv ∈ l, kv.2 = v := by
  intro l
  induction l with
  | nil => intro k v h; exact absurd h (by simp [List.lookup])
  | cons kv' t ih =>
    intro k v h
    obtain ⟨k', v'⟩ := kv'
    cases hbeq : (k == k') with
    | true =>
      simp only [List.lookup, hbeq] at h
      exact ⟨(k', v'), List.mem_cons_self _ _, Option.some_injective _ h⟩
    | false =>
      simp only [List.lookup, hbeq] at h
      rcases ih k v h with ⟨kv, hm, hv⟩
      exact ⟨kv, List.mem_cons_of_mem _ hm, hv⟩

theorem mem_extract_frameworks :
    ∀ (deps : List String) (acc : List String) (a : String),
      a ∈ deps.foldl
        (fun frameworks dep =>
          match List.lookup dep framework_map with
          | some framework =>
              if framework ∈ frameworks then frameworks else frameworks ++ [framework]
          | none => frameworks)
        acc →
      a ∈ acc ∨ ∃ kv ∈ framework_map, a = kv.2 := by
  intro deps
  induction deps with
  | nil => intro acc a h; exact Or.inl h
  | cons d ds ih =>
    intro acc a h
    rw [List.foldl_cons] at h
    rcases ih _ a h with hacc | hkv
    · cases hl : List.lookup d framework_map with
      | none => rw [hl] at hacc; exact Or.inl hacc
      | some fw =>
        rw [hl] at hacc
        have hacc' : a ∈ (if fw ∈ acc then acc else acc ++ [fw]) := hacc
        by_cases hmem : fw ∈ acc
        · rw [if_pos hmem] at hacc'
          exact Or.inl hacc'
        · rw [if_neg hmem] at hacc'
          rcases List.mem_append.mp hacc' with h1 | h1
          · exact Or.inl h1
          · right
            rcases lookup_mem framework_map d fw hl with ⟨kv, hkvmem, hv⟩
            exact ⟨kv, hkvmem, by rw [List.mem_singleton.mp h1, hv]⟩
    · exact Or.inr hkv

theorem node_not_mem_extract (deps : List String) :
    "node" ∉ extract_frameworks_from_deps deps := by
  intro h
  unfold extract_frameworks_from_deps at h
  rcases mem_extract_frameworks deps [] "node" h with h0 | ⟨kv, hkv, hv⟩
  · exact List.not_mem_nil _ h0
  · have hall : ∀ kv ∈ framework_map, kv.2 ≠ "node" := by decide
    exact hall kv hkv hv.symm

theorem node_not_mem_section (o : Option (List String)) :
    "node" ∉ (match o with
      | some deps => extract_frameworks_from_deps deps
      | none => []) := by
  cases o with
  | none => exact List.not_mem_nil _
  | some deps => exact node_not_mem_extract deps

theorem mem_parse_go_mod {lines : List String} {a : String} :
    a ∈ parse_go_mod lines ↔
      a = "go" ∨ ∃ line ∈ lines, ∃ kf ∈ go_framework_keywords,
        strContains line kf.1 = true ∧ a = kf.2 := by
  unfold parse_go_mod
  rw [mem_foldl_append]
  simp only [List.mem_singleton, List.mem_filterMap]
  constructor
  · rintro (ha | ⟨line, hline, kf, hkf, hsome⟩)
    · exact Or.inl ha
    · by_cases hc : strContains line kf.1 = true
      · rw [if_pos hc] at hsome
        exact Or.inr ⟨line, hline, kf, hkf, hc, (Option.some_injective _ hsome).symm⟩
      · rw [if_neg hc] at hsome
        exact absurd hsome (Option.noConfusion)
  · rintro (ha | ⟨line, hline, kf, hkf, hc, ha⟩)
    · exact Or.inl ha
    · refine Or.inr ⟨line, hline, kf, hkf, ?_⟩
      rw [if_pos hc, ha]

theorem parse_go_mod_tags {lines : List String} {a : String} (ha : a ∈ parse_go_mod lines) :
    a = "go" ∨ a = "gin" ∨ a = "fiber" ∨ a = "echo" ∨ a = "gorilla" := by
  rcases mem_parse_go_mod.mp ha with h | ⟨line, _, kf, hkf, _, rfl⟩
  · exact Or.inl h
  · unfold go_framework_keywords at hkf
    simp only [List.mem_cons, List.not_mem_nil, or_false] at hkf
    rcases hkf with h | h | h | h
    · rw [h]; right; left; rfl
    · rw [h]; right; right; left; rfl
    · rw [h]; right; right; right; left; rfl
    · rw [h]; right; right; right; right; rfl

/-! ### Histogram lemmas -/

theorem valuesSum_fileCounts (files : List (Option String)) :
    valuesSum (fileCounts files) = (extsOf files).length := by
  unfold valuesSum fileCounts
  rw [List.map_map]
  have hperm : (sortDedup (extsOf files)).Perm (extsOf files).dedup := by
    rw [List.perm_ext_iff_of_nodup (sortDedup_nodup _) (List.nodup_dedup _)]
    intro a
    rw [mem_sortDedup, List.mem_dedup]
  have hmap :
      ((sortDedup (extsOf files)).map (fun e => (extsOf files).count e)).Perm
        ((extsOf files).dedup.map (fun e => (extsOf files).count e)) :=
    hperm.map _
  calc ((sortDedup (extsOf files)).map
          (Prod.snd ∘ fun e => (e, (extsOf files).count e))).sum
      = ((sortDedup (extsOf files)).map (fun e => (extsOf files).count e)).sum := rfl
    _ = ((extsOf files).dedup.map (fun e => (extsOf files).count e)).sum := hmap.sum_eq
    _ = (extsOf files).length := List.sum_map_count_dedup_eq_length _

theorem extsOf_length_le (files : List (Option String)) :
    (extsOf files).length ≤ files.length :=
  List.length_filterMap_le id files

theorem fileCounts_eq_of_perm {files₁ files₂ : List (Option String)}
    (h : files₁.Perm files₂) : fileCounts files₁ = fileCounts files₂ := by
  unfold fileCounts
  have hexts : (extsOf files₁).Perm (extsOf files₂) := h.filterMap id
  rw [sortDedup_eq_of_perm hexts]
  exact List.map_congr_left (fun e _ => by rw [hexts.count_eq e])

/-! ### Classification lemmas -/

theorem detect_default (technologies : List String) (fc : List (String × Nat))
    (hfr : technologies.any isFrontendTech = false)
    (hbk : technologies.any isBackendTech = false)
    (hmb : (technologies.any isMobileTech || containsKey fc "swift" ||
      containsKey fc "kotlin") = false)
    (hdk : (listContains technologies "tauri" || listContains technologies "electron")
      = false) :
    detect_project_type technologies fc =
      if valuesSum fc < 10 then ProjectType.library else ProjectType.unknown := by
  unfold detect_project_type
  rw [hfr, hbk, hmb, hdk]

/-- Membership in a suggestion list, decomposed into its five sources. -/
theorem mem_suggest_agents {a : String} {pt : ProjectType} {technologies : List String} :
    a ∈ suggest_agents pt technologies ↔
      a ∈ ["code-reviewer", "test-engineer"] ∨ a ∈ type_agents pt ∨
      (a ∈ if technologies.any (fun t => strContains t "docker") then ["docker-specialist"]
        else []) ∨
      (a ∈ if technologies.any isDbTech then ["database-designer"] else []) ∨
      (a ∈ if technologies.any isTestTech then ["e2e-tester"] else []) := by
  unfold suggest_agents
  rw [mem_sortDedup]
  simp only [List.mem_append, or_assoc]

/-! ### Claims -/

/-- C4: whenever the technology list meets both the frontend set and the
backend set, `detect_project_type` returns `WebFullstack`, whatever the
mobile or desktop signals in the technologies or the histogram. -/
theorem claim_C4 (technologies : List String) (file_counts : List (String × Nat))
    (hf : ∃ t ∈ technologies, isFrontendTech t = true)
    (hb : ∃ t ∈ technologies, isBackendTech t = true) :
    detect_project_type technologies file_counts = ProjectType.webFullstack := by
  unfold detect_project_type
  rw [List.any_eq_true.mpr hf, List.any_eq_true.mpr hb]
  cases technologies.any isMobileTech || containsKey file_counts "swift" ||
      containsKey file_counts "kotlin" <;>
    cases listContains technologies "tauri" || listContains technologies "electron" <;> rfl

/-- C4 witness: a concrete list with frontend, backend, mobile and desktop
signals, plus a `swift` histogram key, classifies `WebFullstack`. -/
theorem claim_C4_witness :
    detect_project_type ["react", "express", "flutter", "tauri"] [("swift", 3)] =
      ProjectType.webFullstack :=
  claim_C4 _ _ (by decide) (by decide)

/-- C6: the technology list of every analysis result is duplicate-free and
sorted in ascending lexicographic order. -/
theorem claim_C6 (fs : FsSnapshot) :
    (analyze_project fs).detected_technologies.Nodup ∧
      List.Sorted StrLE (analyze_project fs).detected_technologies :=
  ⟨sortDedup_nodup _, sortDedup_sorted _⟩

/-- C7: every suggestion list contains `code-reviewer` and
`test-engineer`, is duplicate-free, and is sorted. -/
theorem claim_C7 (pt : ProjectType) (technologies : List String) :
    "code-reviewer" ∈ suggest_agents pt technologies ∧
      "test-engineer" ∈ suggest_agents pt technologies ∧
      (suggest_agents pt technologies).Nodup ∧
      List.Sorted StrLE (suggest_agents pt technologies) := by
  refine ⟨?_, ?_, sortDedup_nodup _, sortDedup_sorted _⟩
  · rw [mem_suggest_agents]
    left
    decide
  · rw [mem_suggest_agents]
    left
    decide

/-- C8: `docker-specialist` is suggested exactly when some technology tag
contains the substring `docker`, for every classification; and appending a
docker-containing tag to a list that already triggers it keeps it
triggered. -/
theorem claim_C8 (pt : ProjectType) (technologies : List String) :
    ("docker-specialist" ∈ suggest_agents pt technologies ↔
      technologies.any (fun t => strContains t "docker") = true) ∧
    (∀ t, strContains t "docker" = true →
      "docker-specialist" ∈ suggest_agents pt technologies →
      "docker-specialist" ∈ suggest_agents pt (technologies ++ [t])) := by
  have key : ∀ techs : List String,
      ("docker-specialist" ∈ suggest_agents pt techs ↔
        techs.any (fun t => strContains t "docker") = true) := by
    intro techs
    rw [mem_suggest_agents]
    constructor
    · rintro (h | h | h | h | h)
      · exact absurd h (by decide)
      · exact absurd h (by cases pt <;> decide)
      · rcases hd : techs.any (fun t => strContains t "docker") with _ | _
        · rw [hd] at h
          exact absurd h (by decide)
        · rfl
      · rcases hdb : techs.any isDbTech with _ | _ <;> rw [hdb] at h <;>
          exact absurd h (by decide)
      · rcases hts : techs.any isTestTech with _ | _ <;> rw [hts] at h <;>
          exact absurd h (by decide)
    · intro hd
      right; right; left
      rw [hd]
      decide
  refine ⟨key technologies, ?_⟩
  intro t hdt _
  apply (key (technologies ++ [t])).mpr
  rw [List.any_eq_true]
  exact ⟨t, List.mem_append_right _ (List.mem_singleton_self t), hdt⟩

/-- C8 witness: `docker-compose` triggers `docker-specialist`, and adding
the tag `docker` keeps it triggered. -/
theorem claim_C8_witness :
    "docker-specialist" ∈ suggest_agents ProjectType.unknown ["docker-compose"] ∧
      "docker-specialist" ∈ suggest_agents ProjectType.unknown (["docker-compose"] ++ ["docker"]) := by
  refine ⟨(claim_C8 ProjectType.unknown ["docker-compose"]).1.mpr (by decide), ?_⟩
  exact (claim_C8 ProjectType.unknown ["docker-compose"]).2 "docker" (by decide)
    ((claim_C8 ProjectType.unknown ["docker-compose"]).1.mpr (by decide))

/-- C9: the analysis result is a function of the directory contents alone:
two snapshots with the same manifests and the same walked files (in any
traversal order) yield identical results in every field. -/
theorem claim_C9 (fs₁ fs₂ : FsSnapshot)
    (hp : fs₁.packageJson = fs₂.packageJson)
    (hr : fs₁.requirementsTxt = fs₂.requirementsTxt)
    (hc : fs₁.cargoToml = fs₂.cargoToml)
    (hg : fs₁.goMod = fs₂.goMod)
    (hf : fs₁.files.Perm fs₂.files) :
    analyze_project fs₁ = analyze_project fs₂ := by
  have htech : gathered_technologies fs₁ = gathered_technologies fs₂ := by
    unfold gathered_technologies
    rw [hp, hr, hc, hg]
  have hfc : fileCounts fs₁.files = fileCounts fs₂.files := fileCounts_eq_of_perm hf
  have hlen : fs₁.files.length = fs₂.files.length := hf.length_eq
  unfold analyze_project
  rw [htech, hfc, hlen]

/-- C9 witness: two listings of the same directory contents in different
walk orders produce equal results. -/
theorem claim_C9_witness :
    analyze_project ⟨none, none, none, some ["module m"], [some "go", none]⟩ =
      analyze_project ⟨none, none, none, some ["module m"], [none, some "go"]⟩ :=
  claim_C9 _ _ rfl rfl rfl rfl (List.Perm.swap _ _ _)

/-- C10: the histogram counts exactly the walked files that have an
extension, so their sum never exceeds `total_files` (extensionless files
are counted in `total_files` only). -/
theorem claim_C10 (fs : FsSnapshot) :
    valuesSum (analyze_project fs).file_counts = (extsOf fs.files).length ∧
      valuesSum (analyze_project fs).file_counts ≤ (analyze_project fs).total_files := by
  have h : (analyze_project fs).file_counts = fileCounts fs.files := rfl
  have ht : (analyze_project fs).total_files = fs.files.length := rfl
  rw [h, ht, valuesSum_fileCounts]
  exact ⟨rfl, extsOf_length_le fs.files⟩

/-- C1 counterexample: on a root path that does not exist,
`analyze_project` returns `Ok` — a complete analysis result with empty
evidence, classified `Library` — not a fatal error. -/
theorem claim_C1_counterexample :
    analyze_project_at RootState.missing =
      Except.ok { project_type := ProjectType.library, detected_technologies := [],
                  file_counts := [], total_files := 0,
                  suggested_agents := ["api-documenter", "code-reviewer", "tech-writer",
                                       "test-engineer"] } :=
  congrArg Except.ok (by decide)

/-- C1 amended: `analyze_project` never returns an error — every root
state, a nonexistent or non-directory root included, yields `Ok`; a
missing root yields the empty-evidence result (no technologies, zero
files) classified `Library`. -/
theorem claim_C1_amended :
    (∀ root : RootState, ∃ a, analyze_project_at root = Except.ok a) ∧
      (analyze_project emptySnapshot).project_type = ProjectType.library ∧
      (analyze_project emptySnapshot).detected_technologies = [] ∧
      (analyze_project emptySnapshot).total_files = 0 := by
  refine ⟨?_, by decide, by decide, by decide⟩
  intro root
  cases root with
  | missing => exact ⟨_, rfl⟩
  | file ext => exact ⟨_, rfl⟩
  | dir fs => exact ⟨_, rfl⟩

/-- C2 counterexample: a directory whose only content is a `go.mod`
mentioning `gin-gonic/gin` is classified `Library`, not `BackendApi` —
the `gin` tag is detected but is not in the backend-framework set. -/
theorem claim_C2_counterexample :
    (analyze_project ginSnapshot).detected_technologies = ["gin", "go"] ∧
      (analyze_project ginSnapshot).project_type = ProjectType.library ∧
      (analyze_project ginSnapshot).project_type ≠ ProjectType.backendApi := by
  decide

/-- C2 amended: for a directory whose only content is a Go manifest
mentioning `gin-gonic/gin`, the `gin` technology is detected but the
classification is `Library` (no classification rule fires — `gin` is not
in the backend set — and the single walked file keeps the histogram sum
below 10). -/
theorem claim_C2_amended (goLines : List String)
    (hgin : ∃ line ∈ goLines, strContains line "gin-gonic/gin" = true) :
    "gin" ∈ (analyze_project
        { packageJson := none, requirementsTxt := none, cargoToml := none,
          goMod := some goLines, files := [some "mod"] }).detected_technologies ∧
      (analyze_project
        { packageJson := none, requirementsTxt := none, cargoToml := none,
          goMod := some goLines, files := [some "mod"] }).project_type =
        ProjectType.library := by
  have htech : gathered_technologies
      { packageJson := none, requirementsTxt := none, cargoToml := none,
        goMod := some goLines, files := [some "mod"] } = parse_go_mod goLines := rfl
  constructor
  · show "gin" ∈ sortDedup (gathered_technologies _)
    rw [htech, mem_sortDedup]
    rcases hgin with ⟨line, hline, hc⟩
    exact mem_parse_go_mod.mpr
      (Or.inr ⟨line, hline, ("gin-gonic/gin", "gin"), by decide, hc, rfl⟩)
  · show detect_project_type (gathered_technologies _) (fileCounts [some "mod"]) =
      ProjectType.library
    rw [htech]
    have hfr : (parse_go_mod goLines).any isFrontendTech = false := by
      rw [List.any_eq_false]
      intro t ht
      rcases parse_go_mod_tags ht with rfl | rfl | rfl | rfl | rfl <;> decide
    have hbk : (parse_go_mod goLines).any isBackendTech = false := by
      rw [List.any_eq_false]
      intro t ht
      rcases parse_go_mod_tags ht with rfl | rfl | rfl | rfl | rfl <;> decide
    have hmb1 : (parse_go_mod goLines).any isMobileTech = false := by
      rw [List.any_eq_false]
      intro t ht
      rcases parse_go_mod_tags ht with rfl | rfl | rfl | rfl | rfl <;> decide
    have hdk1 : listContains (parse_go_mod goLines) "tauri" = false := by
      rw [← Bool.not_eq_true, listContains_iff]
      intro ht
      rcases parse_go_mod_tags ht with h | h | h | h | h <;> exact absurd h (by decide)
    have hdk2 : listContains (parse_go_mod goLines) "electron" = false := by
      rw [← Bool.not_eq_true, listContains_iff]
      intro ht
      rcases parse_go_mod_tags ht with h | h | h | h | h <;> exact absurd h (by decide)
    rw [detect_default _ _ hfr hbk (by rw [hmb1]; decide) (by rw [hdk1, hdk2]; decide)]
    decide

/-- C2 amended witness: the single-line `go.mod` requiring gin yields the
`gin` tag and the `Library` classification. -/
theorem claim_C2_amended_witness :
    "gin" ∈ (analyze_project
        { packageJson := none, requirementsTxt := none, cargoToml := none,
          goMod := some ["require github.com/gin-gonic/gin v1.9.1"],
          files := [some "mod"] }).detected_technologies ∧
      (analyze_project
        { packageJson := none, requirementsTxt := none, cargoToml := none,
          goMod := some ["require github.com/gin-gonic/gin v1.9.1"],
          files := [some "mod"] }).project_type = ProjectType.library :=
  claim_C2_amended _ (by decide)

/-- C3 counterexample: a directory with ten extensionless files and no
technology signals has a total file count of 10 — so by the claim it
should be classified `Unknown` — yet the code classifies it `Library`,
because the threshold sums the histogram, which omits extensionless
files. -/
theorem claim_C3_counterexample :
    (analyze_project extlessSnapshot).total_files = 10 ∧
      (analyze_project extlessSnapshot).detected_technologies = [] ∧
      (analyze_project extlessSnapshot).project_type = ProjectType.library := by
  decide

/-- C3 amended: when no classification rule fires, the result is `Library`
exactly when the sum of the histogram counts — the number of walked files
that have an extension, not the total file count — is less than 10, and
`Unknown` otherwise. -/
theorem claim_C3_amended (fs : FsSnapshot)
    (hfr : (gathered_technologies fs).any isFrontendTech = false)
    (hbk : (gathered_technologies fs).any isBackendTech = false)
    (hmb : ((gathered_technologies fs).any isMobileTech ||
      containsKey (fileCounts fs.files) "swift" ||
      containsKey (fileCounts fs.files) "kotlin") = false)
    (hdk : (listContains (gathered_technologies fs) "tauri" ||
      listContains (gathered_technologies fs) "electron") = false) :
    ((analyze_project fs).project_type = ProjectType.library ↔
      valuesSum (fileCounts fs.files) < 10) ∧
      valuesSum (fileCounts fs.files) = (extsOf fs.files).length := by
  refine ⟨?_, valuesSum_fileCounts fs.files⟩
  have h : (analyze_project fs).project_type =
      detect_project_type (gathered_technologies fs) (fileCounts fs.files) := rfl
  rw [h, detect_default _ _ hfr hbk hmb hdk]
  by_cases hv : valuesSum (fileCounts fs.files) < 10
  · rw [if_pos hv]
    exact iff_of_true rfl hv
  · rw [if_neg hv]
    exact iff_of_false (by decide) hv

/-- C3 amended witness: a directory holding one `txt` file fires no rule,
has histogram sum 1 < 10, and is classified `Library`. -/
theorem claim_C3_witness :
    ((analyze_project
        { packageJson := none, requirementsTxt := none, cargoToml := none, goMod := none,
          files := [some "txt"] }).project_type = ProjectType.library ↔
      valuesSum (fileCounts [some "txt"]) < 10) ∧
      valuesSum (fileCounts [some "txt"]) = (extsOf [some "txt"]).length :=
  claim_C3_amended _ (by decide) (by decide) (by decide) (by decide)

/-- C5 counterexample: a present, successfully parsed `package.json` whose
`scripts` section has neither `dev` nor `start` yields no `node` tag. -/
theorem claim_C5_counterexample :
    parse_package_json { dependencies := some ["react"], devDependencies := none,
                         scripts := some ["build", "test"] } = ["react"] ∧
      "node" ∉ parse_package_json { dependencies := some ["react"], devDependencies := none,
                                    scripts := some ["build", "test"] } := by
  decide

/-- C5 amended: every parsed requirements file yields `python`, every
parsed `Cargo.toml` yields `rust`, every parsed `go.mod` yields `go`; a
parsed `package.json` yields `node` exactly when its `scripts` section
defines a `dev` or `start` entry — in particular never otherwise, since
no dependency-table entry maps to `node`. -/
theorem claim_C5_amended (p : PackageJson) (reqLines : List String) (cargo : CargoToml)
    (goLines : List String) :
    ("node" ∈ parse_package_json p ↔
      ∃ scripts, p.scripts = some scripts ∧ ("dev" ∈ scripts ∨ "start" ∈ scripts)) ∧
      "python" ∈ parse_requirements_txt reqLines ∧
      "rust" ∈ parse_cargo_toml cargo ∧
      "go" ∈ parse_go_mod goLines := by
  refine ⟨⟨?_, ?_⟩, ?_, List.mem_cons_self _ _, ?_⟩
  · intro h
    unfold parse_package_json at h
    rcases List.mem_append.mp h with h' | hC
    · rcases List.mem_append.mp h' with h1 | h2
      · exact absurd h1 (node_not_mem_section p.dependencies)
      · exact absurd h2 (node_not_mem_section p.devDependencies)
    · cases hs : p.scripts with
      | none =>
        rw [hs] at hC
        exact absurd hC (List.not_mem_nil _)
      | some scripts =>
        rw [hs] at hC
        have hC' : "node" ∈ (if listContains scripts "dev" || listContains scripts "start"
            then ["node"] else []) := hC
        by_cases hcond : (listContains scripts "dev" || listContains scripts "start") = true
        · refine ⟨scripts, rfl, ?_⟩
          rw [Bool.or_eq_true] at hcond
          rcases hcond with h | h
          · exact Or.inl (listContains_iff.mp h)
          · exact Or.inr (listContains_iff.mp h)
        · rw [if_neg hcond] at hC'
          exact absurd hC' (List.not_mem_nil _)
  · rintro ⟨scripts, hs, hds⟩
    have hcond : (listContains scripts "dev" || listContains scripts "start") = true := by
      rcases hds with h | h
      · rw [listContains_iff.mpr h]
        rfl
      · rw [listContains_iff.mpr h, Bool.or_true]
    unfold parse_package_json
    rw [hs]
    apply List.mem_append_right
    show "node" ∈ (if listContains scripts "dev" || listContains scripts "start"
      then ["node"] else [])
    rw [if_pos hcond]
    exact List.mem_singleton_self _
  · unfold parse_requirements_txt
    rw [mem_foldl_append]
    exact Or.inl (List.mem_singleton_self _)
  · unfold parse_go_mod
    rw [mem_foldl_append]
    exact Or.inl (List.mem_singleton_self _)

end TeamForge
